import Mathlib

/-!
# Verification of llmwerewolf-rs against its specification

The repository ships two Rust files: `src/main.rs` (the binary entry point)
and `tests/basic.rs` (integration tests).  Both call into a library crate
(`llmwerewolf` / `llmwerewolf_rs`) whose source is not present; its arithmetic
helpers are modelled here from the specification and from the expectations the
in-repo callers and tests pin down.  The specification's §2–§8 describe a
forward design of a social-deduction game engine that has no code anywhere in
the repository; those components are likewise modelled from the spec's words.

Machine integers (`i32`) are embedded as `Int` with explicit two's-complement
wrapping where overflow matters.
-/

namespace Werewolf

/-! ## i32 arithmetic model -/

/-- Smallest `i32` value, `-2^31`. -/
def i32Min : Int := -(2 ^ 31)

/-- Largest `i32` value, `2^31 - 1`. -/
def i32Max : Int := 2 ^ 31 - 1

/-- `x` is representable as an `i32`. -/
def fitsI32 (x : Int) : Prop := i32Min ≤ x ∧ x ≤ i32Max

instance (x : Int) : Decidable (fitsI32 x) := by
  unfold fitsI32; infer_instance

/-- Two's-complement wrap of an integer into the `i32` range. -/
def wrap32 (x : Int) : Int := (x + 2 ^ 31) % 2 ^ 32 - 2 ^ 31

/-- Modelled from the spec: the library's `add` helper, a placeholder
arithmetic function returning the `i32` sum of its arguments (wrapping
two's-complement addition; exact on in-range results). -/
def add (a b : Int) : Int := wrap32 (a + b)

/-- Modelled from the spec: the library's `subtract` helper, returning the
`i32` difference of its arguments. -/
def subtract (a b : Int) : Int := wrap32 (a - b)

/-- Modelled from the spec: the library's `multiply` helper, returning the
`i32` product of its arguments. -/
def multiply (a b : Int) : Int := wrap32 (a * b)

/-- Modelled from the spec: the library's `calculate_and_display` helper,
rendering `"<a> + <b> = <sum>"` with decimal renderings of the operands and of
`add a b`, as pinned down by `tests/basic.rs` and the tests in `src/main.rs`. -/
def calculate_and_display (a b : Int) : String :=
  toString a ++ " + " ++ toString b ++ " = " ++ toString (add a b)

/-- The lines printed by `main` (src/main.rs): the crate version line, the
Rust/Cargo build version line, a blank line, then the demo calculation
`calculate_and_display 2 3`.  The three version strings are build-time
environment values, taken here as parameters. -/
def mainOutput (ver rustv cargov : String) : List String :=
  [ "llmwerewolf v" ++ ver
  , "Built with Rust " ++ rustv ++ " and Cargo " ++ cargov
  , ""
  , calculate_and_display 2 3 ]

/-! ## Game engine model

Modelled from the spec: the repository contains no game-engine code, so every
definition below follows §2–§7 of the specification (data model, PhaseEngine,
ActionResolver, VisibilityFilter, EventLog, game configuration). -/

/-- Modelled from the spec: a faction, "a group of players sharing a win
condition (e.g., Werewolves vs. Villagers)". -/
inductive Faction where
  | werewolves
  | villagers
  deriving DecidableEq, Repr

/-- Modelled from the spec: a role's optional night-action capability
(kill, protect, inspect, none). -/
inductive NightAbility where
  | killAbility
  | protectAbility
  | inspectAbility
  | noAbility
  deriving DecidableEq, Repr

/-- Modelled from the spec: a Role — identifier, faction, night-action
capability, and the capability tags consulted by the VisibilityFilter
(faction-visibility flag). -/
structure Role where
  id : String
  faction : Faction
  ability : NightAbility
  factionVisibility : Bool
  deriving DecidableEq, Repr

/-- Modelled from the spec: a Player — unique stable identifier, display
name, immutable role, mutable one-way alive status. -/
structure Player where
  pid : Nat
  name : String
  role : Role
  alive : Bool
  deriving DecidableEq, Repr

/-- Modelled from the spec: the PhaseEngine states
`Night`, `DayDiscussion`, `DayVote`, `GameOver(faction)`.  The intermediate
`Resolution` segment is modelled as part of the transition out of the phase
that collected the actions (Night or DayVote), which keeps the step function
deterministic and total. -/
inductive Phase where
  | night
  | dayDiscussion
  | dayVote
  | gameOver (winner : Faction)
  deriving DecidableEq, Repr

/-- Modelled from the spec: an Action — actor player id, action kind (vote,
night-ability, pass), optional target player id. -/
inductive Action where
  | vote (actor target : Nat)
  | protect (actor target : Nat)
  | inspect (actor target : Nat)
  | kill (actor target : Nat)
  | pass (actor : Nat)
  deriving DecidableEq, Repr

/-- The actor player id of an action. -/
def Action.actor : Action → Nat
  | .vote a _ => a
  | .protect a _ => a
  | .inspect a _ => a
  | .kill a _ => a
  | .pass a => a

/-- Modelled from the spec: a piece of private role-specific knowledge —
an inspection result (inspecting actor, target, the faction learned),
kept for the observer's own history. -/
structure Knowledge where
  actor : Nat
  target : Nat
  learned : Faction
  deriving DecidableEq, Repr

/-- Modelled from the spec: the GameState — ordered sequence of Players
(insertion order = seating order, used for the vote tie-break), current
phase, current round number, and the accumulated private inspection
knowledge consulted by the VisibilityFilter. -/
structure GameState where
  players : List Player
  phase : Phase
  round : Nat
  knowledge : List Knowledge
  deriving DecidableEq, Repr

/-- Modelled from the spec: the error taxonomy of §7 (the members a game
creation or action submission can signal). -/
inductive GameError where
  | UnknownRole (id : String)
  | InvalidActor
  | IllegalAction
  deriving DecidableEq, Repr

/-! ### ActionResolver: night resolution -/

/-- Targets of the protect actions in a batch. -/
def protectTargets (acts : List Action) : List Nat :=
  acts.filterMap fun a =>
    match a with
    | .protect _ t => some t
    | _ => none

/-- Targets of the kill actions in a batch. -/
def killTargets (acts : List Action) : List Nat :=
  acts.filterMap fun a =>
    match a with
    | .kill _ t => some t
    | _ => none

/-- Inspection results produced by the investigate actions of a batch:
read-only lookups of the target's faction. -/
def inspectResults (s : GameState) (acts : List Action) : List Knowledge :=
  acts.filterMap fun a =>
    match a with
    | .inspect actor t =>
        (s.players.find? (fun p => p.pid = t)).map
          (fun p => ⟨actor, t, p.role.faction⟩)
    | _ => none

/-- The effect of the kill stage on one player: a kill target dies unless
some protect action marked it; everyone else is untouched. -/
def nightCasualty (kills prot : List Nat) (p : Player) : Player :=
  if p.pid ∈ kills ∧ p.pid ∉ prot then { p with alive := false } else p

/-- Modelled from the spec: night resolution in the fixed order of §4.3 —
protect actions first (mark protected targets), then investigate actions
(read-only, no state mutation, results returned as a summary), then kill
actions (a protected target survives; an unprotected target dies). -/
def resolveNight (s : GameState) (acts : List Action) :
    GameState × List Knowledge :=
  ({ s with
      players :=
        s.players.map (nightCasualty (killTargets acts) (protectTargets acts)) },
   inspectResults s acts)

/-- A player id is alive in a state. -/
def isAlive (s : GameState) (x : Nat) : Bool :=
  s.players.any fun p => p.pid = x && p.alive

/-! ### ActionResolver: day-vote resolution -/

/-- The day vote's tally for one target: the number of vote actions naming
that target. -/
def tally (acts : List Action) (t : Nat) : Nat :=
  (acts.filterMap fun a =>
    match a with
    | .vote _ tgt => some tgt
    | _ => none).count t

/-- Modelled from the spec: pick the player to eliminate among the given
candidates (in seating order) — a strict plurality eliminates, and an exact
tie is broken by the lowest seating-order index among the tied targets.
Returns `none` when nobody received a vote. -/
def electTarget (seating : List Player) (acts : List Action) : Option Nat :=
  match seating with
  | [] => none
  | p :: rest =>
      match electTarget rest acts with
      | none => if 0 < tally acts p.pid then some p.pid else none
      | some b =>
          if tally acts p.pid < tally acts b then some b
          else if 0 < tally acts p.pid then some p.pid
          else none

/-- Modelled from the spec: win-condition evaluation, checked after every
resolution in a fixed priority order — a faction wins once no opposing
faction member is alive. -/
def checkWin (players : List Player) : Option Faction :=
  let living := players.filter (fun p => p.alive)
  if living.all fun p => p.role.faction = Faction.werewolves then
    some Faction.werewolves
  else if living.all fun p => p.role.faction = Faction.villagers then
    some Faction.villagers
  else none

/-- The effect of a day-vote elimination on one player. -/
def voteCasualty (x : Nat) (p : Player) : Player :=
  if p.pid = x then { p with alive := false } else p

/-- Kill one player id (used by day-vote elimination). -/
def eliminate (players : List Player) (x : Nat) : List Player :=
  players.map (voteCasualty x)

/-! ### PhaseEngine -/

/-- Does a role permit an action in a phase?  Votes belong to `DayVote`;
night abilities require the matching role capability during `Night`;
`pass` is always permitted. -/
def permits (r : Role) (ph : Phase) (a : Action) : Bool :=
  match a with
  | .vote _ _ => ph = Phase.dayVote
  | .protect _ _ => ph = Phase.night && r.ability = NightAbility.protectAbility
  | .inspect _ _ => ph = Phase.night && r.ability = NightAbility.inspectAbility
  | .kill _ _ => ph = Phase.night && r.ability = NightAbility.killAbility
  | .pass _ => true

/-- Modelled from the spec (§4.1 failure semantics): an action is accepted
only if its actor exists, is alive (else `InvalidActor`: dropped), and its
kind is permitted for the actor's role and the current phase (else
`IllegalAction`: dropped). -/
def validAct (s : GameState) (a : Action) : Bool :=
  match s.players.find? (fun p => p.pid = a.actor) with
  | some p => p.alive && permits p.role s.phase a
  | none => false

/-- Modelled from the spec (§4.1): duplicate actions from the same player in
the same round overwrite the prior pending action (last-submitted-wins).
Keeps, for each actor, only the last action it submitted. -/
def dedupLast (l : List Action) : List Action :=
  l.foldr
    (fun a acc =>
      if acc.any fun b => b.actor = a.actor then acc else a :: acc)
    []

/-- The actions of a submitted batch that the PhaseEngine accepts:
invalid and illegal actions are dropped, duplicates resolve
last-submitted-wins. -/
def accept (s : GameState) (l : List Action) : List Action :=
  dedupLast (l.filter (validAct s))

/-- The roster after day-vote resolution: the elected target (strict
plurality, lowest-seating-index tie-break) is eliminated; nobody is
eliminated when no votes were cast. -/
def dayVotePlayers (s : GameState) (acc : List Action) : List Player :=
  match electTarget (s.players.filter fun p => p.alive) acc with
  | some x => eliminate s.players x
  | none => s.players

/-- Modelled from the spec: the PhaseEngine step on an already-accepted
action batch.  `Night` resolves night actions (protect → investigate → kill),
rechecks the win condition, and — when the game continues — enters
`DayDiscussion` with the round number advanced by one (the Night→Day cycle);
`DayDiscussion` passes to `DayVote`; `DayVote` tallies votes, eliminates by
strict plurality with the lowest-seating-index tie-break, rechecks the win
condition, and returns to `Night`; a terminal state is frozen. -/
def stepAccepted (s : GameState) (acc : List Action) : GameState :=
  match s.phase with
  | Phase.night =>
      match checkWin (resolveNight s acc).1.players with
      | some f =>
          { players := (resolveNight s acc).1.players
            phase := Phase.gameOver f
            round := s.round
            knowledge := s.knowledge ++ (resolveNight s acc).2 }
      | none =>
          { players := (resolveNight s acc).1.players
            phase := Phase.dayDiscussion
            round := s.round + 1
            knowledge := s.knowledge ++ (resolveNight s acc).2 }
  | Phase.dayDiscussion => { s with phase := Phase.dayVote }
  | Phase.dayVote =>
      match checkWin (dayVotePlayers s acc) with
      | some f =>
          { s with players := dayVotePlayers s acc, phase := Phase.gameOver f }
      | none =>
          { s with players := dayVotePlayers s acc, phase := Phase.night }
  | Phase.gameOver _ => s

/-- Modelled from the spec: `advance` — the PhaseEngine transition on a raw
submitted batch: filter/dedup into the accepted actions, then resolve. -/
def advance (s : GameState) (submitted : List Action) : GameState :=
  stepAccepted s (accept s submitted)

/-! ### EventLog and replay -/

/-- Modelled from the spec: an EventLogEntry — immutable record of one
accepted phase transition: its strictly-increasing sequence number and the
actions accepted for it. -/
structure EventLogEntry where
  seq : Nat
  accepted : List Action
  deriving DecidableEq, Repr

/-- Run the game from a state on a list of submitted batches, numbering the
log entries from `seq0`: returns the final state and the event log. -/
def runFrom (s : GameState) (seq0 : Nat) :
    List (List Action) → GameState × List EventLogEntry
  | [] => (s, [])
  | b :: bs =>
      let acc := accept s b
      let r := runFrom (stepAccepted s acc) (seq0 + 1) bs
      (r.1, ⟨seq0, acc⟩ :: r.2)

/-- Modelled from the spec: the original run — apply the submitted batches
from the initial state, recording every accepted transition in the EventLog
with sequence numbers contiguous from 0. -/
def runGame (init : GameState) (bs : List (List Action)) :
    GameState × List EventLogEntry :=
  runFrom init 0 bs

/-- Modelled from the spec: replay — feed the logged accepted actions back
through the engine from the initial state, in log order from sequence 0. -/
def replay (init : GameState) (log : List EventLogEntry) : GameState :=
  log.foldl (fun s e => advance s e.accepted) init

/-! ### VisibilityFilter -/

/-- Modelled from the spec: the per-observer ObservableState — public info
(alive roster, phase, round) for all; the observer's own role; and the
faction knowledge the observer's capabilities grant (faction-mates'
identities under the faction-visibility flag, plus the observer's own
inspection history). -/
structure ObservableState where
  roster : List (Nat × String × Bool)
  phase : Phase
  round : Nat
  ownRole : Option Role
  knownFactions : List (Nat × Faction)
  deriving DecidableEq, Repr

/-- Modelled from the spec: `view (state, observerId)` — computes the subset
of the GameState the observer is permitted to see.  Hidden role/faction
information about other players is released only through the two explicit
capability channels: the faction-visibility flag (faction-mates) and the
observer's own recorded inspection results. -/
def view (s : GameState) (oid : Nat) : ObservableState :=
  let o := s.players.find? (fun p => p.pid = oid)
  { roster := s.players.map fun p => (p.pid, p.name, p.alive)
    phase := s.phase
    round := s.round
    ownRole := o.map fun p => p.role
    knownFactions :=
      (match o with
       | none => []
       | some ob =>
           if ob.role.factionVisibility then
             (s.players.filter fun p =>
                p.role.faction = ob.role.faction).map
               fun p => (p.pid, p.role.faction)
           else []) ++
      (s.knowledge.filter fun k => k.actor = oid).map
        fun k => (k.target, k.learned) }

/-! ### Game configuration and creation -/

/-- Modelled from the spec: the RoleRegistry — a static table mapping role
identifiers to behavioral capabilities. -/
def RoleRegistry : Type := List Role

/-- Look a role identifier up in the registry. -/
def lookupRole (reg : RoleRegistry) (rid : String) : Option Role :=
  reg.find? fun r => r.id = rid

/-- Modelled from the spec: resolve a configuration's role→count mapping
against the registry; an unrecognized role identifier fails with
`UnknownRole` and aborts resolution. -/
def resolveRoles (reg : RoleRegistry) :
    List (String × Nat) → Except GameError (List Role)
  | [] => Except.ok []
  | (rid, n) :: rest =>
      match lookupRole reg rid with
      | none => Except.error (GameError.UnknownRole rid)
      | some r => (resolveRoles reg rest).map fun rs => List.replicate n r ++ rs

/-- Modelled from the spec: game creation from a configuration (role→count
mapping).  Configuration errors are fatal: an `UnknownRole` aborts creation
and no GameState — not even a partial one — is produced.  On success the
players are seated in configuration order, all alive, the phase is the
initial `Night` and the round number is 0. -/
def createGame (reg : RoleRegistry) (cfg : List (String × Nat)) :
    Except GameError GameState :=
  (resolveRoles reg cfg).map fun roles =>
    { players :=
        (List.range roles.length).zip roles |>.map fun ir =>
          { pid := ir.1
            name := "P" ++ toString ir.1
            role := ir.2
            alive := true }
      phase := Phase.night
      round := 0
      knowledge := [] }

/-! ### Concrete roles and players used by the scenario witnesses -/

/-- A plain villager (no night ability, no faction visibility). -/
def villagerRole : Role :=
  ⟨"Villager", Faction.villagers, NightAbility.noAbility, false⟩

/-- A werewolf: kill ability, sees its faction-mates. -/
def werewolfRole : Role :=
  ⟨"Werewolf", Faction.werewolves, NightAbility.killAbility, true⟩

/-- The seer: inspect ability. -/
def seerRole : Role :=
  ⟨"Seer", Faction.villagers, NightAbility.inspectAbility, false⟩

/-- The guard: protect ability. -/
def guardRole : Role :=
  ⟨"Guard", Faction.villagers, NightAbility.protectAbility, false⟩

/-- Seating order [A, B, C] of the spec's tie-break scenario. -/
def seatA : Player := ⟨0, "A", villagerRole, true⟩

def seatB : Player := ⟨1, "B", villagerRole, true⟩

def seatC : Player := ⟨2, "C", villagerRole, true⟩

/-- The spec's tie scenario: vote tally {A:2, B:2}. -/
def tiedVotes : List Action :=
  [Action.vote 10 0, Action.vote 11 1, Action.vote 12 0, Action.vote 13 1]

/-- A demo roster: two werewolves, two villagers, a guard and a seer. -/
def demoPlayers : List Player :=
  [ ⟨0, "W1", werewolfRole, true⟩
  , ⟨1, "V1", villagerRole, true⟩
  , ⟨2, "V2", villagerRole, true⟩
  , ⟨3, "G", guardRole, true⟩
  , ⟨4, "S", seerRole, true⟩
  , ⟨5, "W2", werewolfRole, true⟩ ]

/-- The demo roster at the initial Night, with no recorded knowledge. -/
def demoNight : GameState := ⟨demoPlayers, Phase.night, 0, []⟩

/-- Modelled from the spec: a game state is reachable from `init` when some
sequence of submitted action batches drives the PhaseEngine from `init`
to it. -/
def Reachable (init s : GameState) : Prop :=
  Relation.ReflTransGen (fun a b => ∃ acts, advance a acts = b) init s

/-- Every recorded piece of inspection knowledge belongs to a seated player
whose role capability is `inspect`: the invariant backing the
VisibilityFilter's "capability explicitly grants it" guarantee. -/
def knowledgeByCapability (s : GameState) : Prop :=
  ∀ k ∈ s.knowledge, ∃ ob ∈ s.players,
    ob.pid = k.actor ∧ ob.role.ability = NightAbility.inspectAbility

/-- A demo RoleRegistry holding the four modelled roles. -/
def demoRegistry : RoleRegistry :=
  [werewolfRole, villagerRole, seerRole, guardRole]

/-! ### Lemmas: the i32 wrap -/

theorem wrap32_eq_of_fits {x : Int} (h : fitsI32 x) : wrap32 x = x := by
  obtain ⟨h1, h2⟩ := h
  unfold i32Min at h1
  unfold i32Max at h2
  unfold wrap32
  have hlo : (0 : Int) ≤ x + 2 ^ 31 := by omega
  have hhi : x + 2 ^ 31 < 2 ^ 32 := by omega
  rw [Int.emod_eq_of_lt hlo hhi]
  omega

theorem add_eq_of_fits {a b : Int} (h : fitsI32 (a + b)) : add a b = a + b :=
  wrap32_eq_of_fits h

/-! ### Lemmas: acceptance is idempotent -/

theorem dedupLast_cons (a : Action) (l : List Action) :
    dedupLast (a :: l) =
      if (dedupLast l).any (fun b => b.actor = a.actor) then dedupLast l
      else a :: dedupLast l := rfl

theorem mem_of_mem_dedupLast {x : Action} :
    ∀ {l : List Action}, x ∈ dedupLast l → x ∈ l := by
  intro l
  induction l with
  | nil => intro h; exact absurd h (by simp [dedupLast])
  | cons a l ih =>
      rw [dedupLast_cons]
      split
      · intro h; exact List.mem_cons_of_mem _ (ih h)
      · intro h
        rcases List.mem_cons.mp h with h | h
        · exact h ▸ List.mem_cons_self _ _
        · exact List.mem_cons_of_mem _ (ih h)

theorem dedupLast_pairwise (l : List Action) :
    (dedupLast l).Pairwise (fun a b => a.actor ≠ b.actor) := by
  induction l with
  | nil => simp [dedupLast]
  | cons a l ih =>
      rw [dedupLast_cons]
      split
      · exact ih
      · next hany =>
          refine List.pairwise_cons.mpr ⟨?_, ih⟩
          intro b hb hEq
          exact hany (List.any_eq_true.mpr ⟨b, hb, by simp [hEq]⟩)

theorem dedupLast_eq_self :
    ∀ {l : List Action}, l.Pairwise (fun a b => a.actor ≠ b.actor) →
      dedupLast l = l := by
  intro l
  induction l with
  | nil => intro _; rfl
  | cons a l ih =>
      intro hp
      rcases List.pairwise_cons.mp hp with ⟨ha, hl⟩
      rw [dedupLast_cons, ih hl]
      have hfalse : l.any (fun b => b.actor = a.actor) = false := by
        rw [List.any_eq_false]
        intro b hb
        simp only [decide_eq_true_eq]
        exact fun he => ha b hb he.symm
      simp [hfalse]

theorem accept_idem (s : GameState) (l : List Action) :
    accept s (accept s l) = accept s l := by
  unfold accept
  have h1 : (dedupLast (l.filter (validAct s))).filter (validAct s)
      = dedupLast (l.filter (validAct s)) := by
    apply List.filter_eq_self.mpr
    intro a ha
    exact (List.mem_filter.mp (mem_of_mem_dedupLast ha)).2
  rw [h1, dedupLast_eq_self (dedupLast_pairwise _)]

theorem advance_accept (s : GameState) (b : List Action) :
    advance s (accept s b) = stepAccepted s (accept s b) := by
  unfold advance
  rw [accept_idem]

theorem replay_runFrom (bs : List (List Action)) :
    ∀ (s : GameState) (seq0 : Nat),
      replay s (runFrom s seq0 bs).2 = (runFrom s seq0 bs).1 ∧
      (runFrom s seq0 bs).2.map EventLogEntry.seq = List.range' seq0 bs.length := by
  induction bs with
  | nil => intro s seq0; exact ⟨rfl, rfl⟩
  | cons b bs ih =>
      intro s seq0
      have hrun : runFrom s seq0 (b :: bs) =
          ((runFrom (stepAccepted s (accept s b)) (seq0 + 1) bs).1,
           ⟨seq0, accept s b⟩ ::
             (runFrom (stepAccepted s (accept s b)) (seq0 + 1) bs).2) := rfl
      rw [hrun]
      constructor
      · show List.foldl _ s _ = _
        rw [List.foldl_cons]
        have : advance s (accept s b) = stepAccepted s (accept s b) :=
          advance_accept s b
        rw [this]
        exact (ih (stepAccepted s (accept s b)) (seq0 + 1)).1
      · show (⟨seq0, accept s b⟩ :: _ : List EventLogEntry).map _ = _
        rw [List.map_cons]
        rw [(ih (stepAccepted s (accept s b)) (seq0 + 1)).2]
        rfl

/-! ### Lemmas: day-vote election -/

theorem electTarget_cons (p : Player) (rest : List Player) (acts : List Action) :
    electTarget (p :: rest) acts =
      match electTarget rest acts with
      | none => if 0 < tally acts p.pid then some p.pid else none
      | some b =>
          if tally acts p.pid < tally acts b then some b
          else if 0 < tally acts p.pid then some p.pid
          else none := rfl

theorem electTarget_pos {acts : List Action} :
    ∀ {seating : List Player} {b : Nat}, electTarget seating acts = some b →
      0 < tally acts b := by
  intro seating
  induction seating with
  | nil => intro b h; exact absurd h (by simp [electTarget])
  | cons p rest ih =>
      intro b h
      rw [electTarget_cons] at h
      cases hrec : electTarget rest acts with
      | none =>
          rw [hrec] at h
          dsimp only at h
          split at h
          · next hp => injection h with he; exact he ▸ hp
          · exact absurd h (by simp)
      | some b0 =>
          rw [hrec] at h
          dsimp only at h
          split at h
          · injection h with he; exact he ▸ ih hrec
          · split at h
            · next hp => injection h with he; exact he ▸ hp
            · exact absurd h (by simp)

theorem electTarget_eq_none {acts : List Action} :
    ∀ {seating : List Player}, electTarget seating acts = none →
      ∀ q ∈ seating, tally acts q.pid = 0 := by
  intro seating
  induction seating with
  | nil => intro _ q hq; exact absurd hq (List.not_mem_nil q)
  | cons p rest ih =>
      intro h q hq
      rw [electTarget_cons] at h
      cases hrec : electTarget rest acts with
      | none =>
          rw [hrec] at h
          dsimp only at h
          split at h
          · exact absurd h (by simp)
          · next hp =>
              rcases List.mem_cons.mp hq with rfl | hq'
              · omega
              · exact ih hrec q hq'
      | some b =>
          rw [hrec] at h
          dsimp only at h
          split at h
          · exact absurd h (by simp)
          · split at h
            · exact absurd h (by simp)
            · next h1 h2 =>
                have hbpos := electTarget_pos hrec
                omega

/-! ### Lemmas: night resolution -/

theorem nightCasualty_pid (kills prot : List Nat) (p : Player) :
    (nightCasualty kills prot p).pid = p.pid := by
  unfold nightCasualty
  split <;> rfl

theorem nightCasualty_role (kills prot : List Nat) (p : Player) :
    (nightCasualty kills prot p).role = p.role := by
  unfold nightCasualty
  split <;> rfl

theorem resolveNight_players (s : GameState) (acts : List Action) :
    (resolveNight s acts).1.players =
      s.players.map (nightCasualty (killTargets acts) (protectTargets acts)) :=
  rfl

/-! ### Lemmas: round numbers along phase transitions -/

theorem advance_round (s : GameState) (acts : List Action) :
    s.round ≤ (advance s acts).round ∧
    (advance s acts).round ≤ s.round + 1 ∧
    ((advance s acts).round = s.round + 1 ↔
      s.phase = Phase.night ∧ (advance s acts).phase = Phase.dayDiscussion) := by
  unfold advance stepAccepted
  cases hph : s.phase <;> dsimp only
  case night =>
      cases hcw : checkWin (resolveNight s (accept s acts)).1.players <;>
        dsimp only
      case none =>
          refine ⟨?_, ?_, ?_⟩
          · show s.round ≤ s.round + 1; omega
          · show s.round + 1 ≤ s.round + 1; omega
          · show s.round + 1 = s.round + 1 ↔
              Phase.night = Phase.night ∧
                Phase.dayDiscussion = Phase.dayDiscussion
            simp
      case some f =>
          refine ⟨?_, ?_, ?_⟩
          · show s.round ≤ s.round; omega
          · show s.round ≤ s.round + 1; omega
          · show s.round = s.round + 1 ↔
              Phase.night = Phase.night ∧ Phase.gameOver f = Phase.dayDiscussion
            constructor
            · intro h; omega
            · rintro ⟨-, h2⟩; exact absurd h2 (by simp)
  case dayDiscussion =>
      refine ⟨?_, ?_, ?_⟩
      · show s.round ≤ s.round; omega
      · show s.round ≤ s.round + 1; omega
      · show s.round = s.round + 1 ↔
          Phase.dayDiscussion = Phase.night ∧ Phase.dayVote = Phase.dayDiscussion
        constructor
        · intro h; omega
        · rintro ⟨h1, -⟩; exact absurd h1 (by simp)
  case dayVote =>
      cases hcw : checkWin (dayVotePlayers s (accept s acts)) <;> dsimp only
      case none =>
          refine ⟨?_, ?_, ?_⟩
          · show s.round ≤ s.round; omega
          · show s.round ≤ s.round + 1; omega
          · show s.round = s.round + 1 ↔
              Phase.dayVote = Phase.night ∧ Phase.night = Phase.dayDiscussion
            constructor
            · intro h; omega
            · rintro ⟨h1, -⟩; exact absurd h1 (by simp)
      case some f =>
          refine ⟨?_, ?_, ?_⟩
          · show s.round ≤ s.round; omega
          · show s.round ≤ s.round + 1; omega
          · show s.round = s.round + 1 ↔
              Phase.dayVote = Phase.night ∧
                Phase.gameOver f = Phase.dayDiscussion
            constructor
            · intro h; omega
            · rintro ⟨h1, -⟩; exact absurd h1 (by simp)
  case gameOver f =>
      refine ⟨?_, ?_, ?_⟩
      · show s.round ≤ s.round; omega
      · show s.round ≤ s.round + 1; omega
      · show s.round = s.round + 1 ↔
          Phase.gameOver f = Phase.night ∧ s.phase = Phase.dayDiscussion
        constructor
        · intro h; omega
        · rintro ⟨h1, -⟩; exact absurd h1 (by simp)

theorem reachable_round_le {init s : GameState} (h : Reachable init s) :
    init.round ≤ s.round := by
  induction h with
  | refl => exact le_refl _
  | tail hpre hstep ih =>
      obtain ⟨acts, rfl⟩ := hstep
      exact le_trans ih (advance_round _ _).1

/-! ### Lemmas: the visibility invariant -/

theorem voteCasualty_pid (x : Nat) (p : Player) :
    (voteCasualty x p).pid = p.pid := by
  unfold voteCasualty
  split <;> rfl

theorem voteCasualty_role (x : Nat) (p : Player) :
    (voteCasualty x p).role = p.role := by
  unfold voteCasualty
  split <;> rfl

theorem accept_valid (s : GameState) (l : List Action) :
    ∀ a ∈ accept s l, validAct s a = true := by
  intro a ha
  unfold accept at ha
  exact (List.mem_filter.mp (mem_of_mem_dedupLast ha)).2

theorem stepAccepted_preserves_ids (s : GameState) (acc : List Action) :
    ∀ p ∈ s.players, ∃ q ∈ (stepAccepted s acc).players,
      q.pid = p.pid ∧ q.role = p.role := by
  intro p hp
  unfold stepAccepted
  cases hph : s.phase <;> dsimp only
  case night =>
      cases hcw : checkWin (resolveNight s acc).1.players <;> dsimp only <;>
        · refine ⟨nightCasualty (killTargets acc) (protectTargets acc) p,
            ?_, nightCasualty_pid _ _ _, nightCasualty_role _ _ _⟩
          rw [resolveNight_players]
          exact List.mem_map_of_mem _ hp
  case dayDiscussion => exact ⟨p, hp, rfl, rfl⟩
  case dayVote =>
      cases hcw : checkWin (dayVotePlayers s acc) <;> dsimp only <;>
        · unfold dayVotePlayers
          cases helim : electTarget (s.players.filter fun q => q.alive) acc <;>
            dsimp only
          case some x =>
              exact ⟨voteCasualty x p, List.mem_map_of_mem _ hp,
                voteCasualty_pid _ _, voteCasualty_role _ _⟩
          case none => exact ⟨p, hp, rfl, rfl⟩
  case gameOver f => exact ⟨p, hp, rfl, rfl⟩

theorem advance_preserves_ids (s : GameState) (acts : List Action) :
    ∀ p ∈ s.players, ∃ q ∈ (advance s acts).players,
      q.pid = p.pid ∧ q.role = p.role :=
  stepAccepted_preserves_ids s (accept s acts)

theorem advance_knowledge (s : GameState) (acts : List Action) :
    (advance s acts).knowledge =
        s.knowledge ++ inspectResults s (accept s acts) ∨
      (advance s acts).knowledge = s.knowledge := by
  unfold advance stepAccepted
  cases hph : s.phase <;> dsimp only
  case night =>
      cases hcw : checkWin (resolveNight s (accept s acts)).1.players <;>
        dsimp only
      · left; rfl
      · left; rfl
  case dayDiscussion => right; rfl
  case dayVote =>
      cases hcw : checkWin (dayVotePlayers s (accept s acts)) <;> dsimp only
      · right; rfl
      · right; rfl
  case gameOver f => right; rfl

theorem inspectResults_capability (s : GameState) (l : List Action)
    (hval : ∀ a ∈ l, validAct s a = true) :
    ∀ k ∈ inspectResults s l, ∃ ob ∈ s.players,
      ob.pid = k.actor ∧ ob.role.ability = NightAbility.inspectAbility := by
  intro k hk
  obtain ⟨a, ha, hfa⟩ := List.mem_filterMap.mp hk
  cases a with
  | vote actor t => exact Option.noConfusion hfa
  | protect actor t => exact Option.noConfusion hfa
  | kill actor t => exact Option.noConfusion hfa
  | pass actor => exact Option.noConfusion hfa
  | inspect actor t =>
      obtain ⟨pt, hfind, hpk⟩ := Option.map_eq_some'.mp hfa
      have hv := hval _ ha
      unfold validAct at hv
      simp only [Action.actor] at hv
      cases hob : s.players.find? (fun q => q.pid = actor) with
      | none => rw [hob] at hv; exact absurd hv (by simp)
      | some ob =>
          rw [hob] at hv
          dsimp only at hv
          rw [Bool.and_eq_true] at hv
          have hperm := hv.2
          unfold permits at hperm
          dsimp only at hperm
          rw [Bool.and_eq_true] at hperm
          have hab : ob.role.ability = NightAbility.inspectAbility := by
            simpa using hperm.2
          have hpid : ob.pid = actor := by
            simpa using List.find?_some hob
          refine ⟨ob, List.mem_of_find?_eq_some hob, ?_, hab⟩
          rw [hpid, ← hpk]

theorem advance_preserves_knowledgeByCapability
    (s : GameState) (acts : List Action) (h : knowledgeByCapability s) :
    knowledgeByCapability (advance s acts) := by
  intro k hk
  cases advance_knowledge s acts with
  | inl heq =>
      rw [heq] at hk
      rcases List.mem_append.mp hk with hk | hk
      · obtain ⟨ob, hob, hpid, hab⟩ := h k hk
        obtain ⟨q, hq, hqpid, hqrole⟩ := advance_preserves_ids s acts ob hob
        exact ⟨q, hq, by rw [hqpid, hpid], by rw [hqrole]; exact hab⟩
      · obtain ⟨ob, hob, hpid, hab⟩ :=
          inspectResults_capability s _ (accept_valid s acts) k hk
        obtain ⟨q, hq, hqpid, hqrole⟩ := advance_preserves_ids s acts ob hob
        exact ⟨q, hq, by rw [hqpid, hpid], by rw [hqrole]; exact hab⟩
  | inr heq =>
      rw [heq] at hk
      obtain ⟨ob, hob, hpid, hab⟩ := h k hk
      obtain ⟨q, hq, hqpid, hqrole⟩ := advance_preserves_ids s acts ob hob
      exact ⟨q, hq, by rw [hqpid, hpid], by rw [hqrole]; exact hab⟩

theorem reachable_knowledgeByCapability {init s : GameState}
    (hreach : Reachable init s) (h : knowledgeByCapability init) :
    knowledgeByCapability s := by
  induction hreach with
  | refl => exact h
  | tail hpre hstep ih =>
      obtain ⟨acts, rfl⟩ := hstep
      exact advance_preserves_knowledgeByCapability _ _ ih

theorem eq_of_mem_pairwise_pid {l : List Player}
    (hnd : l.Pairwise fun a b => a.pid ≠ b.pid) {p q : Player}
    (hp : p ∈ l) (hq : q ∈ l) (hpq : q.pid = p.pid) : q = p := by
  by_contra hne
  have hsym : Symmetric fun (a b : Player) => a.pid ≠ b.pid :=
    fun a b h he => h he.symm
  exact (hnd.forall hsym hq hp hne) hpq

/-! ### Lemmas: game creation -/

theorem resolveRoles_error (reg : RoleRegistry) :
    ∀ (cfg : List (String × Nat)),
      (∃ e ∈ cfg, lookupRole reg e.1 = none) →
      ∃ rid, lookupRole reg rid = none ∧
        resolveRoles reg cfg = Except.error (GameError.UnknownRole rid) := by
  intro cfg
  induction cfg with
  | nil => rintro ⟨e, he, -⟩; exact absurd he (List.not_mem_nil e)
  | cons c rest ih =>
      rintro ⟨e, he, hnone⟩
      obtain ⟨rid, n⟩ := c
      cases hl : lookupRole reg rid with
      | none =>
          refine ⟨rid, hl, ?_⟩
          unfold resolveRoles
          rw [hl]
      | some r =>
          have he' : e ∈ rest := by
            rcases List.mem_cons.mp he with rfl | h
            · have hnone' : lookupRole reg rid = none := hnone
              rw [hnone'] at hl
              exact Option.noConfusion hl
            · exact h
          obtain ⟨rid2, hl2, heq⟩ := ih ⟨e, he', hnone⟩
          refine ⟨rid2, hl2, ?_⟩
          unfold resolveRoles
          rw [hl, heq]
          rfl

end Werewolf

/-- C5: for every sequence of submitted action batches, replaying the game's
EventLog through the engine from sequence number 0 reproduces a final
GameState identical to the one produced by the original run; moreover the
log's sequence numbers are contiguous starting at 0. -/
theorem c5_replay_reproduces_final_state
    (init : Werewolf.GameState) (bs : List (List Werewolf.Action)) :
    Werewolf.replay init (Werewolf.runGame init bs).2 =
      (Werewolf.runGame init bs).1 ∧
    (Werewolf.runGame init bs).2.map Werewolf.EventLogEntry.seq =
      List.range bs.length := by
  refine ⟨(Werewolf.replay_runFrom bs init 0).1, ?_⟩
  rw [Werewolf.runGame, (Werewolf.replay_runFrom bs init 0).2,
    List.range_eq_range']

/-! ## Claims C1–C4: the arithmetic helpers -/

/-- C1: `main` prints version strings (crate version, then the Rust and Cargo
versions) followed by the demo calculation `calculate_and_display 2 3`, whose
displayed line is `"2 + 3 = 5"` — for every choice of the build-time version
strings. -/
theorem c1_main_prints_versions_then_demo (ver rustv cargov : String) :
    Werewolf.mainOutput ver rustv cargov =
      [ "llmwerewolf v" ++ ver
      , "Built with Rust " ++ rustv ++ " and Cargo " ++ cargov
      , ""
      , Werewolf.calculate_and_display 2 3 ] ∧
    Werewolf.calculate_and_display 2 3 = "2 + 3 = 5" :=
  ⟨rfl, rfl⟩

/-- C2: for every pair of i32 inputs whose sum fits in i32,
`calculate_and_display a b` is exactly `"<a> + <b> = <s>"` with the decimal
renderings of `a`, `b` and of the exact integer sum `a + b`. -/
theorem c2_calculate_and_display_format (a b : Int)
    (hab : Werewolf.fitsI32 (a + b)) :
    Werewolf.calculate_and_display a b =
      toString a ++ " + " ++ toString b ++ " = " ++ toString (a + b) := by
  unfold Werewolf.calculate_and_display
  rw [Werewolf.add_eq_of_fits hab]

/-- Witness for C2 at the negative-operand input `(-5, 3)` from
`test_main_with_negative_values`. -/
theorem c2_witness :
    Werewolf.calculate_and_display (-5) 3 = "-5 + 3 = -2" := by
  have h := c2_calculate_and_display_format (-5) 3 (by decide)
  rw [h]; rfl

/-- C3: whenever the mathematical result fits in i32, `add`, `subtract` and
`multiply` return the exact integer sum, difference and product. -/
theorem c3_exact_arithmetic (a b : Int) :
    (Werewolf.fitsI32 (a + b) → Werewolf.add a b = a + b) ∧
    (Werewolf.fitsI32 (a - b) → Werewolf.subtract a b = a - b) ∧
    (Werewolf.fitsI32 (a * b) → Werewolf.multiply a b = a * b) :=
  ⟨fun h => Werewolf.wrap32_eq_of_fits h,
   fun h => Werewolf.wrap32_eq_of_fits h,
   fun h => Werewolf.wrap32_eq_of_fits h⟩

/-- Witness for C3 at the negative inputs of `edge_cases_test`:
`add (-5) (-3) = -8`, `multiply (-2) 3 = -6`, `subtract (-5) (-3) = -2`. -/
theorem c3_witness :
    Werewolf.add (-5) (-3) = -8 ∧
    Werewolf.multiply (-2) 3 = -6 ∧
    Werewolf.subtract (-5) (-3) = -2 :=
  ⟨(c3_exact_arithmetic (-5) (-3)).1 (by decide),
   (c3_exact_arithmetic (-2) 3).2.2 (by decide),
   (c3_exact_arithmetic (-5) (-3)).2.1 (by decide)⟩

/-- C4: for i32 values `a`, `b` whose sum fits in i32, `subtract` is a right
inverse of `add` (`subtract (add a b) b = a`), and `add` is commutative. -/
theorem c4_subtract_inverts_add_and_add_comm (a b : Int)
    (ha : Werewolf.fitsI32 a) (hb : Werewolf.fitsI32 b)
    (hab : Werewolf.fitsI32 (a + b)) :
    Werewolf.subtract (Werewolf.add a b) b = a ∧
    Werewolf.add a b = Werewolf.add b a := by
  refine ⟨?_, ?_⟩
  · rw [Werewolf.add_eq_of_fits hab]
    unfold Werewolf.subtract
    have : a + b - b = a := by ring
    rw [this, Werewolf.wrap32_eq_of_fits ha]
  · unfold Werewolf.add
    rw [Int.add_comm]

/-- Witness for C4 at `(10, 5)` from `integration_test_complex_calculation`. -/
theorem c4_witness :
    Werewolf.subtract (Werewolf.add 10 5) 5 = 10 ∧
    Werewolf.add 10 5 = Werewolf.add 5 10 :=
  c4_subtract_inverts_add_and_add_comm 10 5 (by decide) (by decide) (by decide)

/-- C7: in day-vote resolution a strict plurality eliminates: whenever the
election returns a target `e`, that target received at least one vote, no
seated candidate's tally exceeds `e`'s, and every candidate seated strictly
before `e` has a strictly smaller tally — so an exact tie is broken in favor
of the lowest seating-order index among the tied targets. -/
theorem c7_vote_plurality_and_tiebreak
    (seating : List Werewolf.Player) (acts : List Werewolf.Action) (e : Nat)
    (h : Werewolf.electTarget seating acts = some e) :
    0 < Werewolf.tally acts e ∧
    (∀ q ∈ seating, Werewolf.tally acts q.pid ≤ Werewolf.tally acts e) ∧
    ∃ l1 p l2, seating = l1 ++ p :: l2 ∧ p.pid = e ∧
      ∀ q ∈ l1, Werewolf.tally acts q.pid < Werewolf.tally acts e := by
  induction seating generalizing e with
  | nil => exact absurd h (by simp [Werewolf.electTarget])
  | cons p rest ih =>
      rw [Werewolf.electTarget_cons] at h
      cases hrec : Werewolf.electTarget rest acts with
      | none =>
          rw [hrec] at h
          dsimp only at h
          split at h
          · next hp =>
              injection h with he
              subst he
              refine ⟨hp, ?_, [], p, rest, rfl, rfl, by simp⟩
              intro q hq
              rcases List.mem_cons.mp hq with rfl | hq'
              · exact le_refl _
              · rw [Werewolf.electTarget_eq_none hrec q hq']
                omega
          · exact absurd h (by simp)
      | some b =>
          rw [hrec] at h
          dsimp only at h
          obtain ⟨hbpos, hble, l1, pb, l2, hsplit, hpb, hl1⟩ := ih b hrec
          split at h
          · next h1 =>
              injection h with he
              subst he
              refine ⟨hbpos, ?_, p :: l1, pb, l2, by rw [hsplit]; rfl, hpb, ?_⟩
              · intro q hq
                rcases List.mem_cons.mp hq with rfl | hq'
                · exact le_of_lt h1
                · exact hble q hq'
              · intro q hq
                rcases List.mem_cons.mp hq with rfl | hq'
                · exact h1
                · exact hl1 q hq'
          · next h1 =>
              split at h
              · next h2 =>
                  injection h with he
                  subst he
                  refine ⟨h2, ?_, [], p, rest, rfl, rfl, by simp⟩
                  intro q hq
                  rcases List.mem_cons.mp hq with rfl | hq'
                  · exact le_refl _
                  · exact le_trans (hble q hq') (by omega)
              · exact absurd h (by simp)

/-- Witness for C7: the spec's scenario — tally {A:2, B:2} over seating
[A, B, C] — elects A (seating index 0), and A's tally is maximal. -/
theorem c7_witness :
    Werewolf.electTarget [Werewolf.seatA, Werewolf.seatB, Werewolf.seatC]
        Werewolf.tiedVotes = some Werewolf.seatA.pid ∧
    0 < Werewolf.tally Werewolf.tiedVotes Werewolf.seatA.pid ∧
    ∀ q ∈ [Werewolf.seatA, Werewolf.seatB, Werewolf.seatC],
      Werewolf.tally Werewolf.tiedVotes q.pid ≤
        Werewolf.tally Werewolf.tiedVotes Werewolf.seatA.pid := by
  have h := c7_vote_plurality_and_tiebreak
    [Werewolf.seatA, Werewolf.seatB, Werewolf.seatC] Werewolf.tiedVotes
    Werewolf.seatA.pid (by decide)
  exact ⟨by decide, h.1, h.2.1⟩

/-- C8: night resolution is a function of the action set, not of submission
order (permutation-invariant); protect actions shield their targets from the
kill stage; investigate actions mutate nothing; a kill against an unprotected
target kills it, and all simultaneous unprotected kill targets die. -/
theorem c8_night_resolution_fixed_order
    (s : Werewolf.GameState) (acts acts' : List Werewolf.Action) :
    (List.Perm acts acts' →
      (Werewolf.resolveNight s acts).1 = (Werewolf.resolveNight s acts').1) ∧
    (∀ p ∈ s.players, p.alive = true →
      p.pid ∈ Werewolf.protectTargets acts →
      Werewolf.isAlive (Werewolf.resolveNight s acts).1 p.pid = true) ∧
    (∀ x ∈ Werewolf.killTargets acts, x ∉ Werewolf.protectTargets acts →
      Werewolf.isAlive (Werewolf.resolveNight s acts).1 x = false) ∧
    (∀ a t, (Werewolf.resolveNight s (Werewolf.Action.inspect a t :: acts)).1 =
      (Werewolf.resolveNight s acts).1) := by
  refine ⟨?_, ?_, ?_, ?_⟩
  · intro hperm
    have hk : ∀ x, x ∈ Werewolf.killTargets acts ↔
        x ∈ Werewolf.killTargets acts' := by
      intro x
      unfold Werewolf.killTargets
      exact (hperm.filterMap _).mem_iff
    have hp : ∀ x, x ∈ Werewolf.protectTargets acts ↔
        x ∈ Werewolf.protectTargets acts' := by
      intro x
      unfold Werewolf.protectTargets
      exact (hperm.filterMap _).mem_iff
    have hfun : Werewolf.nightCasualty (Werewolf.killTargets acts)
          (Werewolf.protectTargets acts) =
        Werewolf.nightCasualty (Werewolf.killTargets acts')
          (Werewolf.protectTargets acts') := by
      funext q
      unfold Werewolf.nightCasualty
      exact if_congr (and_congr (hk _) (not_congr (hp _))) rfl rfl
    show ({ s with players := _ } : Werewolf.GameState) = { s with players := _ }
    rw [hfun]
  · intro p hp halive hprot
    unfold Werewolf.isAlive
    apply List.any_eq_true.mpr
    refine ⟨Werewolf.nightCasualty (Werewolf.killTargets acts)
      (Werewolf.protectTargets acts) p, ?_, ?_⟩
    · rw [Werewolf.resolveNight_players]
      exact List.mem_map_of_mem _ hp
    · have : Werewolf.nightCasualty (Werewolf.killTargets acts)
          (Werewolf.protectTargets acts) p = p := by
        unfold Werewolf.nightCasualty
        rw [if_neg]
        intro hc
        exact hc.2 hprot
      rw [this]
      simp [halive]
  · intro x hx hnx
    unfold Werewolf.isAlive
    rw [List.any_eq_false]
    intro q hq
    rw [Werewolf.resolveNight_players] at hq
    obtain ⟨p, hp, rfl⟩ := List.mem_map.mp hq
    by_cases hpx : p.pid = x
    · have : Werewolf.nightCasualty (Werewolf.killTargets acts)
          (Werewolf.protectTargets acts) p = { p with alive := false } := by
        unfold Werewolf.nightCasualty
        rw [if_pos]
        rw [hpx]
        exact ⟨hx, hnx⟩
      rw [this]
      simp
    · simp [Werewolf.nightCasualty_pid, hpx]
  · intro a t
    rfl

/-- Witness for C8 on the demo roster: with the guard protecting player 1
and the werewolf targeting player 1, player 1 survives the night; with the
werewolf targeting the unprotected player 2, player 2 dies. -/
theorem c8_witness :
    Werewolf.isAlive (Werewolf.resolveNight Werewolf.demoNight
      [Werewolf.Action.protect 3 1, Werewolf.Action.kill 0 1]).1 1 = true ∧
    Werewolf.isAlive (Werewolf.resolveNight Werewolf.demoNight
      [Werewolf.Action.kill 0 2]).1 2 = false := by
  constructor
  · exact (c8_night_resolution_fixed_order Werewolf.demoNight
      [Werewolf.Action.protect 3 1, Werewolf.Action.kill 0 1] []).2.1
      ⟨1, "V1", Werewolf.villagerRole, true⟩ (by decide) rfl (by decide)
  · exact (c8_night_resolution_fixed_order Werewolf.demoNight
      [Werewolf.Action.kill 0 2] []).2.2.1 2 (by decide) (by decide)

/-- C9: in every reachable game state the round number never decreases
(it is monotone along every engine run), every single transition changes it
by at most 1 (no value is skipped), and it increases by exactly 1 precisely
on a Night→Day cycle (a Night transition that enters DayDiscussion). -/
theorem c9_round_strict_increment
    (init s : Werewolf.GameState) (hreach : Werewolf.Reachable init s) :
    init.round ≤ s.round ∧
    ∀ acts,
      s.round ≤ (Werewolf.advance s acts).round ∧
      (Werewolf.advance s acts).round ≤ s.round + 1 ∧
      ((Werewolf.advance s acts).round = s.round + 1 ↔
        s.phase = Werewolf.Phase.night ∧
        (Werewolf.advance s acts).phase = Werewolf.Phase.dayDiscussion) :=
  ⟨Werewolf.reachable_round_le hreach, fun acts => Werewolf.advance_round s acts⟩

/-- Witness for C9 at the demo initial state (reachable from itself): its
round is monotone and a Night step into Day adds exactly one. -/
theorem c9_witness :
    Werewolf.demoNight.round ≤ Werewolf.demoNight.round ∧
    ∀ acts,
      Werewolf.demoNight.round ≤ (Werewolf.advance Werewolf.demoNight acts).round ∧
      (Werewolf.advance Werewolf.demoNight acts).round ≤
        Werewolf.demoNight.round + 1 ∧
      ((Werewolf.advance Werewolf.demoNight acts).round =
          Werewolf.demoNight.round + 1 ↔
        Werewolf.demoNight.phase = Werewolf.Phase.night ∧
        (Werewolf.advance Werewolf.demoNight acts).phase =
          Werewolf.Phase.dayDiscussion) :=
  c9_round_strict_increment Werewolf.demoNight Werewolf.demoNight
    Relation.ReflTransGen.refl

/-- C6: in every reachable game state (from an initial state with empty
knowledge and with unique player ids), the VisibilityFilter's
`view (state, observerId)` reveals the faction of another player `p` only
when a role capability explicitly grants it: either the observer's role has
the faction-visibility flag and `p` is a faction-mate (and the revealed
faction is `p`'s true faction), or the observer's role has the inspect
capability and the revelation comes from the observer's own recorded
inspection of `p`.  No other hidden role or faction information about
another player is ever exposed. -/
theorem c6_visibility_never_leaks
    (init s : Werewolf.GameState) (oid : Nat) (p : Werewolf.Player)
    (f : Werewolf.Faction)
    (hreach : Werewolf.Reachable init s)
    (hinitk : init.knowledge = [])
    (hnd : s.players.Pairwise fun a b => a.pid ≠ b.pid)
    (hp : p ∈ s.players) (halive : p.alive = true) (hne : p.pid ≠ oid)
    (hmem : (p.pid, f) ∈ (Werewolf.view s oid).knownFactions) :
    (∃ ob ∈ s.players, ob.pid = oid ∧
        ob.role.factionVisibility = true ∧
        ob.role.faction = p.role.faction ∧ f = p.role.faction) ∨
    (∃ ob ∈ s.players, ob.pid = oid ∧
        ob.role.ability = Werewolf.NightAbility.inspectAbility ∧
        ∃ k ∈ s.knowledge, k.actor = oid ∧ k.target = p.pid) := by
  have hkcap : Werewolf.knowledgeByCapability s :=
    Werewolf.reachable_knowledgeByCapability hreach
      (by intro k hk; rw [hinitk] at hk; exact absurd hk (List.not_mem_nil k))
  unfold Werewolf.view at hmem
  dsimp only at hmem
  rcases List.mem_append.mp hmem with hmem | hmem
  · cases hob : s.players.find? (fun q => q.pid = oid) with
    | none => rw [hob] at hmem; exact absurd hmem (List.not_mem_nil _)
    | some ob =>
        rw [hob] at hmem
        dsimp only at hmem
        by_cases hfv : ob.role.factionVisibility = true
        · rw [if_pos hfv] at hmem
          obtain ⟨q, hqf, hqe⟩ := List.mem_map.mp hmem
          have hq : q ∈ s.players := (List.mem_filter.mp hqf).1
          have hfac : q.role.faction = ob.role.faction := by
            simpa using (List.mem_filter.mp hqf).2
          have hqpid : q.pid = p.pid := congrArg Prod.fst hqe
          have hqlearn : q.role.faction = f := congrArg Prod.snd hqe
          have hqp : q = p := Werewolf.eq_of_mem_pairwise_pid hnd hp hq hqpid
          left
          refine ⟨ob, List.mem_of_find?_eq_some hob, ?_, hfv, ?_, ?_⟩
          · simpa using List.find?_some hob
          · rw [← hfac, hqp]
          · rw [← hqlearn, hqp]
        · rw [if_neg hfv] at hmem
          exact absurd hmem (List.not_mem_nil _)
  · obtain ⟨k, hkf, hke⟩ := List.mem_map.mp hmem
    have hkmem : k ∈ s.knowledge := (List.mem_filter.mp hkf).1
    have hkact : k.actor = oid := by
      simpa using (List.mem_filter.mp hkf).2
    have hktgt : k.target = p.pid := congrArg Prod.fst hke
    obtain ⟨ob, hob, hobpid, hobab⟩ := hkcap k hkmem
    right
    exact ⟨ob, hob, by rw [hobpid, hkact], hobab, k, hkmem, hkact, hktgt⟩

/-- Witness for C6 on the demo roster (reachable from itself): werewolf 0
sees the faction of its faction-mate 5, and the theorem attributes this to
the faction-visibility capability. -/
theorem c6_witness :
    (∃ ob ∈ Werewolf.demoNight.players, ob.pid = 0 ∧
        ob.role.factionVisibility = true ∧
        ob.role.faction = Werewolf.werewolfRole.faction ∧
        Werewolf.Faction.werewolves = Werewolf.werewolfRole.faction) ∨
    (∃ ob ∈ Werewolf.demoNight.players, ob.pid = 0 ∧
        ob.role.ability = Werewolf.NightAbility.inspectAbility ∧
        ∃ k ∈ Werewolf.demoNight.knowledge, k.actor = 0 ∧ k.target = 5) :=
  c6_visibility_never_leaks Werewolf.demoNight Werewolf.demoNight 0
    ⟨5, "W2", Werewolf.werewolfRole, true⟩ Werewolf.Faction.werewolves
    Relation.ReflTransGen.refl rfl (by decide) (by decide) rfl (by decide)
    (by decide)

/-- C10: game creation from a configuration containing a role identifier
absent from the RoleRegistry fails with `UnknownRole` for such an
identifier, and no GameState — not even a partial one — is produced. -/
theorem c10_unknown_role_fatal (reg : Werewolf.RoleRegistry)
    (cfg : List (String × Nat))
    (h : ∃ e ∈ cfg, Werewolf.lookupRole reg e.1 = none) :
    (∃ rid, Werewolf.lookupRole reg rid = none ∧
        Werewolf.createGame reg cfg =
          Except.error (Werewolf.GameError.UnknownRole rid)) ∧
    ∀ s, Werewolf.createGame reg cfg ≠ Except.ok s := by
  obtain ⟨rid, hl, heq⟩ := Werewolf.resolveRoles_error reg cfg h
  constructor
  · refine ⟨rid, hl, ?_⟩
    unfold Werewolf.createGame
    rw [heq]
    rfl
  · intro s hok
    unfold Werewolf.createGame at hok
    rw [heq] at hok
    exact Except.noConfusion hok

/-- Witness for C10: the spec's scenario — a configuration asking for one
"Seer2", an identifier not present in the demo registry — fails with
`UnknownRole` and yields no GameState. -/
theorem c10_witness :
    (∃ rid, Werewolf.lookupRole Werewolf.demoRegistry rid = none ∧
        Werewolf.createGame Werewolf.demoRegistry [("Seer2", 1)] =
          Except.error (Werewolf.GameError.UnknownRole rid)) ∧
    ∀ s, Werewolf.createGame Werewolf.demoRegistry [("Seer2", 1)] ≠
      Except.ok s :=
  c10_unknown_role_fatal Werewolf.demoRegistry [("Seer2", 1)]
    ⟨("Seer2", 1), by decide, by decide⟩
